import Mathlib

/-!
Verification of the rust_trading rolling-window feature pipeline.

This file shallowly embeds the components of the repository that the
specification talks about: the EMA engine (src/features/ema.rs), the
resampling engine (polars group_by_dynamic as configured there), the
forward-fill merge, the pivot-strength engine (src/features/pivots.rs),
the bounded raw window and the closed-candle event handler
(src/live_stream.rs), the CSV timestamp rendering (src/data_storage.rs),
and the kline-message gate of the stream orchestrator.

Real numbers are modelled by rationals (the floating-point claims under
scrutiny are structural, not about rounding); machine integers by ℤ/ℕ;
nullable columns by Option.
-/

/- ================================================================
   Part 1: the EMA engine (src/features/ema.rs).

   ewma_opts_from_span builds EWMOptions { alpha = 2/(span+1),
   adjust: true, bias: false, min_periods: span, ignore_nulls: false }
   and add_ema_features applies polars ewm_mean with those options to
   the close column.  Polars ewm_mean with adjust = true computes
     y[t] = (x[t] + (1-a)·x[t-1] + … + (1-a)^t·x[0])
            / (1 + (1-a) + … + (1-a)^t)
   emitting null while fewer than min_periods observations have been
   seen.  (bias and ignore_nulls do not affect the mean of a null-free
   column.)  We embed the linear-scan implementation: running numerator
   and denominator, each decayed by (1-a) per step.
   ================================================================ -/

/-- One pass of polars ewm_mean (adjust = true) over the remaining
inputs, carrying the decayed numerator and denominator and the count of
observations seen so far; emits null while count < minPeriods. -/
def ewmAux (alpha : ℚ) (minPeriods : ℕ) : List ℚ → ℚ → ℚ → ℕ → List (Option ℚ)
  | [], _, _, _ => []
  | x :: xs, num, den, cnt =>
    let num' := x + (1 - alpha) * num
    let den' := 1 + (1 - alpha) * den
    (if cnt + 1 < minPeriods then none else some (num' / den')) ::
      ewmAux alpha minPeriods xs num' den' (cnt + 1)

/-- polars ewm_mean with adjust = true on a null-free column. -/
def ewm_mean (alpha : ℚ) (minPeriods : ℕ) (xs : List ℚ) : List (Option ℚ) :=
  ewmAux alpha minPeriods xs 0 0 0

/-- The EMA column attached by the engine for a given span:
ewm_mean with the options built by ewma_opts_from_span
(alpha = 2/(span+1), min_periods = span, adjust = true). -/
def ema_from_span (span : ℕ) (closes : List ℚ) : List (Option ℚ) :=
  ewm_mean (2 / (span + 1)) span closes

/-- Modelled from the spec: the reference recurrence
ema[0] = close[0], ema[i] = alpha·close[i] + (1-alpha)·ema[i-1]
(inner loop, given the previous value). -/
def emaSpecAux (alpha : ℚ) (prev : ℚ) : List ℚ → List ℚ
  | [] => []
  | x :: xs =>
    let e := alpha * x + (1 - alpha) * prev
    e :: emaSpecAux alpha e xs

/-- Modelled from the spec: the EMA series of the reference recurrence,
with alpha = 2/(span+1). -/
def emaSpec (span : ℕ) : List ℚ → List ℚ
  | [] => []
  | x :: xs => x :: emaSpecAux (2 / (span + 1)) x xs

/-- The adjusted (weighted-average) closed form that polars documents
for ewm_mean with adjust = true, together with the min_periods nulls. -/
def ewmClosedForm (alpha : ℚ) (minPeriods : ℕ) (xs : List ℚ) : List (Option ℚ) :=
  (List.range xs.length).map fun i =>
    if i + 1 < minPeriods then none
    else some ((∑ j ∈ Finset.range (i + 1), (1 - alpha) ^ (i - j) * xs.getD j 0) /
               (∑ j ∈ Finset.range (i + 1), (1 - alpha) ^ (i - j)))

/-- Peeling the newest term off the adjusted weighted numerator. -/
lemma ewm_sum_shift (a x : ℚ) (xs : List ℚ) (i : ℕ) :
    ∑ j ∈ Finset.range (i + 2), (1 - a) ^ (i + 1 - j) * (x :: xs).getD j 0
      = (∑ j ∈ Finset.range (i + 1), (1 - a) ^ (i - j) * xs.getD j 0) + (1 - a) ^ (i + 1) * x := by
  rw [Finset.sum_range_succ']
  simp [Nat.succ_sub_succ]

/-- Peeling the newest term off the adjusted weight denominator. -/
lemma ewm_sum_shift_den (a : ℚ) (i : ℕ) :
    ∑ j ∈ Finset.range (i + 2), (1 - a) ^ (i + 1 - j)
      = (∑ j ∈ Finset.range (i + 1), (1 - a) ^ (i - j)) + (1 - a) ^ (i + 1) := by
  rw [Finset.sum_range_succ']
  simp [Nat.succ_sub_succ]

/-- Closed-form characterization of the ewm_mean scan, for arbitrary
initial accumulator state. -/
lemma ewmAux_eq (alpha : ℚ) (mp : ℕ) (xs : List ℚ) (num den : ℚ) (cnt : ℕ) :
    ewmAux alpha mp xs num den cnt =
      (List.range xs.length).map fun i =>
        if cnt + i + 1 < mp then none
        else some
          (((∑ j ∈ Finset.range (i + 1), (1 - alpha) ^ (i - j) * xs.getD j 0) +
              (1 - alpha) ^ (i + 1) * num) /
           ((∑ j ∈ Finset.range (i + 1), (1 - alpha) ^ (i - j)) +
              (1 - alpha) ^ (i + 1) * den)) := by
  induction xs generalizing num den cnt with
  | nil => simp [ewmAux]
  | cons x xs ih =>
    rw [ewmAux, ih]
    rw [List.length_cons, List.range_succ_eq_map, List.map_cons, List.map_map]
    congr 1
    · simp [Finset.sum_range_succ]
    · refine List.map_congr_left fun i hi => ?_
      simp only [Function.comp, Nat.succ_eq_add_one]
      rw [show cnt + 1 + i + 1 = cnt + (i + 1) + 1 from by omega]
      rw [show i + 1 + 1 = i + 2 from rfl, ewm_sum_shift, ewm_sum_shift_den]
      congr 3
      · ring
      · ring

/-- C1, counterexample.  The engine (polars ewm_mean with adjust = true
and min_periods = span, as built by ewma_opts_from_span) does not
satisfy the claimed recurrence: for span 2 a length-1 price series
yields a null, not the single value, and on [0, 1] the second value is
3/4 (adjusted weighting), not the 2/3 the recurrence gives. -/
theorem c1_counterexample :
    ema_from_span 2 [1] = [none] ∧ emaSpec 2 [1] = [1] ∧
    ema_from_span 2 [0, 1] = [none, some (3 / 4)] ∧ emaSpec 2 [0, 1] = [0, 2 / 3] := by
  refine ⟨?_, ?_, ?_, ?_⟩ <;> norm_num [ema_from_span, ewm_mean, ewmAux, emaSpec, emaSpecAux]

/-- C1, amended.  The EMA series attached by the engine for span N is
the adjust = true exponentially weighted mean with alpha = 2/(N+1):
null while fewer than N observations have been seen, and
ema[i] = (Σ_{j≤i} (1-alpha)^(i-j)·close[j]) / (Σ_{j≤i} (1-alpha)^(i-j))
from index N-1 on.  In particular a price series of length 1 is its own
EMA only for span 1; for span ≥ 2 it yields a single null. -/
theorem c1_amended (span : ℕ) (xs : List ℚ) :
    ema_from_span span xs = ewmClosedForm (2 / (span + 1)) span xs ∧
    (span = 1 → ∀ c : ℚ, ema_from_span span [c] = [some c]) ∧
    (2 ≤ span → ∀ c : ℚ, ema_from_span span [c] = [none]) := by
  refine ⟨?_, ?_, ?_⟩
  · rw [ema_from_span, ewm_mean, ewmAux_eq, ewmClosedForm]
    refine List.map_congr_left fun i hi => ?_
    simp only [zero_add, mul_zero, add_zero]
  · rintro rfl c
    norm_num [ema_from_span, ewm_mean, ewmAux]
  · intro h c
    have hlt : 0 + 1 < span := by omega
    simp [ema_from_span, ewm_mean, ewmAux, hlt]

/-- C1, witness: the amended characterization applied at spans 1 and 2. -/
theorem c1_witness :
    ema_from_span 2 [5, 7] = ewmClosedForm (2 / (2 + 1)) 2 [5, 7] ∧
    ema_from_span 1 [9] = [some 9] ∧
    2 ≤ 2 ∧ ema_from_span 2 [5] = [none] :=
  ⟨(c1_amended 2 [5, 7]).1, (c1_amended 1 [9]).2.1 rfl 9,
   le_refl 2, (c1_amended 2 [5]).2.2 (le_refl 2) 5⟩

/- ================================================================
   Part 2: the resampling engine (compute_resampled_ema in
   src/features/ema.rs).

   The code resamples with polars group_by_dynamic over the datetime
   column: every = period = T, offset = 0,
   closed_window = ClosedWindow::Right, start_by = StartBy::DataPoint,
   and the remaining options defaulted (label = lower window boundary),
   then aggregates col("close").last().

   Per the documented semantics of group_by_dynamic with these options,
   window k is the right-closed interval (t0 + k·T, t0 + (k+1)·T]
   anchored at the FIRST data point t0 of the frame (not at an absolute
   epoch), each window with at least one row produces one output row
   labelled with the window's lower boundary t0 + k·T, and the
   aggregated close is the close of the last row in the window.  Times
   are integer milliseconds (ℤ); the input is sorted ascending by
   datetime (compute_features sorts before calling).
   ================================================================ -/

/-- Collapse each run of equal keys to its last element (the
col("close").last() aggregation per window, on key-sorted rows). -/
def lastPerRun : List (ℤ × ℚ) → List (ℤ × ℚ)
  | [] => []
  | [p] => [p]
  | p :: q :: rest =>
    if p.1 = q.1 then lastPerRun (q :: rest) else p :: lastPerRun (q :: rest)

/-- polars group_by_dynamic(every = period = T, closed = Right,
start_by = DataPoint, label = left) followed by close.last():
row (t, c) with t > t0 falls in window k = (t - t0 - 1) / T, i.e.
t ∈ (t0 + k·T, t0 + (k+1)·T]; the first data point t0 itself precedes
every window and is dropped; each nonempty window yields one output row
(t0 + k·T, last close). -/
def group_by_dynamic_right (T : ℤ) (rows : List (ℤ × ℚ)) : List (ℤ × ℚ) :=
  match rows with
  | [] => []
  | (t0, _) :: _ =>
    let keyed := rows.filterMap fun r =>
      if t0 < r.1 then some ((r.1 - t0 - 1) / T, r.2) else none
    (lastPerRun keyed).map fun kc => (t0 + kc.1 * T, kc.2)

/-- Modelled from the spec (§4.2): buckets are the half-open intervals
[k·T, (k+1)·T) anchored at the fixed epoch; a bucket is emitted only
once closed (some later candle with open_time ≥ (k+1)·T exists), with
the bucket's right edge as datetime and the last close as value. -/
def resampleSpec (T : ℤ) (rows : List (ℤ × ℚ)) : List (ℤ × ℚ) :=
  let keyed := rows.map fun r => (r.1 / T, r.2)
  ((lastPerRun keyed).filter fun kc =>
    rows.any fun r => decide ((kc.1 + 1) * T ≤ r.1)).map
    fun kc => ((kc.1 + 1) * T, kc.2)

/-- Everything lastPerRun keeps was in the input. -/
lemma lastPerRun_subset : ∀ (l : List (ℤ × ℚ)) (p : ℤ × ℚ), p ∈ lastPerRun l → p ∈ l := by
  intro l
  induction l using lastPerRun.induct with
  | case1 => simp [lastPerRun]
  | case2 p => simp [lastPerRun]
  | case3 p q rest hpq ih =>
    intro x hx
    rw [lastPerRun, if_pos hpq] at hx
    exact List.mem_cons_of_mem p (ih x hx)
  | case4 p q rest hpq ih =>
    intro x hx
    rw [lastPerRun, if_neg hpq] at hx
    rcases List.mem_cons.mp hx with h | h
    · exact h ▸ List.mem_cons_self x _
    · exact List.mem_cons_of_mem p (ih x h)

/-- On key-sorted rows, lastPerRun keeps exactly the last row of each
key. -/
lemma mem_lastPerRun_iff (k : ℤ) (c : ℚ) :
    ∀ (l : List (ℤ × ℚ)), (l.Pairwise fun a b => a.1 ≤ b.1) →
      ((k, c) ∈ lastPerRun l ↔
        (l.filter fun p => decide (p.1 = k)).getLast? = some (k, c)) := by
  intro l
  induction l using lastPerRun.induct with
  | case1 => simp [lastPerRun]
  | case2 p =>
    intro _
    rcases p with ⟨a, b⟩
    rw [lastPerRun]
    by_cases hk : a = k
    · subst hk
      rw [List.filter_cons_of_pos (by simp)]
      simp [Prod.ext_iff]
      constructor <;> (intro h; simp_all)
    · rw [List.filter_cons_of_neg (by simpa using hk)]
      simp [Prod.ext_iff]
      intro h
      exact absurd h.symm hk
  | case3 p q rest hpq ih =>
    intro hsorted
    have hsorted' := hsorted.of_cons
    rw [lastPerRun, if_pos hpq, ih hsorted']
    by_cases hk : p.1 = k
    · have hqk : q.1 = k := hpq ▸ hk
      rw [show (List.filter (fun p => decide (p.1 = k)) (p :: q :: rest))
          = p :: List.filter (fun p => decide (p.1 = k)) (q :: rest) from by
        simp [List.filter_cons, hk]]
      have hne : List.filter (fun p => decide (p.1 = k)) (q :: rest) ≠ [] :=
        List.ne_nil_of_mem (a := q) (by simp [List.mem_filter, hqk])
      rcases List.exists_cons_of_ne_nil hne with ⟨a, l2, heq⟩
      rw [heq, List.getLast?_cons_cons, ← heq]
    · rw [show (List.filter (fun p => decide (p.1 = k)) (p :: q :: rest))
          = List.filter (fun p => decide (p.1 = k)) (q :: rest) from by
        simp [List.filter_cons, hk]]
  | case4 p q rest hpq ih =>
    intro hsorted
    have hsorted' := hsorted.of_cons
    rw [lastPerRun, if_neg hpq]
    have hqle : ∀ x ∈ q :: rest, q.1 ≤ x.1 := by
      intro x hx
      rcases List.mem_cons.mp hx with h | h
      · exact h ▸ le_refl _
      · exact List.rel_of_pairwise_cons hsorted' h
    have hplt : p.1 < q.1 := lt_of_le_of_ne (List.rel_of_pairwise_cons hsorted (by simp)) hpq
    by_cases hk : p.1 = k
    · have hnil : List.filter (fun x => decide (x.1 = k)) (q :: rest) = [] := by
        rw [List.filter_eq_nil_iff]
        intro x hx
        have := hqle x hx
        simp only [decide_eq_true_eq]
        omega
      have htail : (k, c) ∉ lastPerRun (q :: rest) := by
        intro hmem
        have h1 := lastPerRun_subset _ _ hmem
        have h2 := hqle _ h1
        simp only at h2
        omega
      rw [show (List.filter (fun x => decide (x.1 = k)) (p :: q :: rest)) = [p] from by
        simp [List.filter_cons, hk, hnil]]
      simp only [List.mem_cons, htail, or_false, List.getLast?_singleton]
      rcases p with ⟨a, b⟩
      simp only at hk
      subst hk
      constructor
      · intro h
        injection h with h1 h2
        rw [h2]
      · intro h
        injection h with h
        injection h with h1 h2
        rw [h2]
    · rw [show (List.filter (fun x => decide (x.1 = k)) (p :: q :: rest))
          = List.filter (fun x => decide (x.1 = k)) (q :: rest) from by
        simp [List.filter_cons, hk]]
      rw [← ih hsorted']
      simp only [List.mem_cons]
      constructor
      · rintro (h | h)
        · exact absurd (congrArg Prod.fst h).symm hk
        · exact h
      · exact fun h => Or.inr h

/-- Window membership in arithmetic form: a row at time t lies in
window k (k ≥ 0) of the data-point-anchored right-closed grid iff
t0 + k·T < t ≤ t0 + (k+1)·T. -/
lemma bucket_key_iff (T t0 k t : ℤ) (hT : 0 < T) (hk : 0 ≤ k) :
    (t0 < t ∧ (t - t0 - 1) / T = k) ↔ (t0 + k * T < t ∧ t ≤ t0 + k * T + T) := by
  constructor
  · rintro ⟨h1, h2⟩
    have hle : k * T ≤ t - t0 - 1 := (Int.le_ediv_iff_mul_le hT).mp (le_of_eq h2.symm)
    have hlt : t - t0 - 1 < (k + 1) * T := (Int.ediv_lt_iff_lt_mul hT).mp (by omega)
    have hexp : (k + 1) * T = k * T + T := by ring
    constructor <;> linarith
  · rintro ⟨h1, h2⟩
    have hkT : 0 ≤ k * T := mul_nonneg hk hT.le
    have h1' : t0 < t := by linarith
    have hle : k ≤ (t - t0 - 1) / T := (Int.le_ediv_iff_mul_le hT).mpr (by linarith)
    have hexp : (k + 1) * T = k * T + T := by ring
    have hlt : (t - t0 - 1) / T < k + 1 := (Int.ediv_lt_iff_lt_mul hT).mpr (by linarith)
    exact ⟨h1', by omega⟩

/-- Filtering the keyed rows for window k is filtering the raw rows for
the window interval. -/
lemma keyed_filter_eq (T t0 : ℤ) (hT : 0 < T) (k : ℤ) (hk : 0 ≤ k) (rows : List (ℤ × ℚ)) :
    ((rows.filterMap fun r => if t0 < r.1 then some ((r.1 - t0 - 1) / T, r.2) else none).filter
        fun p => decide (p.1 = k))
      = (rows.filter fun r => decide (t0 + k * T < r.1 ∧ r.1 ≤ t0 + k * T + T)).map
          fun r => (k, r.2) := by
  induction rows with
  | nil => simp
  | cons r rs ih =>
    by_cases h1 : t0 < r.1
    · by_cases h2 : (r.1 - t0 - 1) / T = k
      · have hb := (bucket_key_iff T t0 k r.1 hT hk).mp ⟨h1, h2⟩
        have hbp : t0 + k * T < r.1 ∧ r.1 ≤ t0 + k * T + T := hb
        simp [List.filterMap_cons, h1, List.filter_cons, h2, hbp, ih]
      · have hb : ¬(t0 + k * T < r.1 ∧ r.1 ≤ t0 + k * T + T) := fun hc =>
          h2 ((bucket_key_iff T t0 k r.1 hT hk).mpr hc).2
        simp [List.filterMap_cons, h1, List.filter_cons, h2, hb, ih]
    · have hb : ¬(t0 + k * T < r.1 ∧ r.1 ≤ t0 + k * T + T) := fun hc =>
        h1 ((bucket_key_iff T t0 k r.1 hT hk).mpr hc).1
      simp [List.filterMap_cons, h1, List.filter_cons, hb, ih]

/-- Keys of time-sorted rows are nondecreasing. -/
lemma keyed_sorted (T t0 : ℤ) (hT : 0 < T) (rows : List (ℤ × ℚ))
    (hs : rows.Pairwise fun a b => a.1 < b.1) :
    ((rows.filterMap fun r => if t0 < r.1 then some ((r.1 - t0 - 1) / T, r.2) else none).Pairwise
      fun a b => a.1 ≤ b.1) := by
  refine List.Pairwise.filterMap _ ?_ hs
  intro a b hab x hx y hy
  by_cases h1 : t0 < a.1 <;> by_cases h2 : t0 < b.1 <;> simp [h1, h2] at hx hy
  rw [← hx, ← hy]
  exact Int.ediv_le_ediv hT (by omega)

/-- All window keys are nonnegative. -/
lemma keyed_key_nonneg (T t0 : ℤ) (hT : 0 < T) (rows : List (ℤ × ℚ)) (kc : ℤ × ℚ)
    (hkc : kc ∈ rows.filterMap fun r => if t0 < r.1 then some ((r.1 - t0 - 1) / T, r.2) else none) :
    0 ≤ kc.1 := by
  rcases List.mem_filterMap.mp hkc with ⟨r, hr, hf⟩
  by_cases h1 : t0 < r.1 <;> simp [h1] at hf
  rw [← hf]
  exact Int.ediv_nonneg (by omega) hT.le

/-- A 15-minute close grid over two hours, closes 0..8. -/
def wholeSample : List (ℤ × ℚ) :=
  [(0, 0), (15, 1), (30, 2), (45, 3), (60, 4), (75, 5), (90, 6), (105, 7), (120, 8)]

/-- C2, counterexample.  The window grid is anchored at the first
candle (StartBy::DataPoint), not at a fixed epoch: on a 15-minute grid
with T = 60, resampling the whole window yields rows labelled 0 and 60,
the suffix dropping the first two candles yields rows labelled 30 and
90, and the row (60, 8) — whose candles 75..120 all lie inside the
suffix — is absent from the suffix resample.  The output also differs
from the spec-modelled epoch-anchored resampler. -/
theorem c2_counterexample :
    group_by_dynamic_right 60 wholeSample ≠ resampleSpec 60 wholeSample ∧
    group_by_dynamic_right 60 wholeSample = [(0, 4), (60, 8)] ∧
    group_by_dynamic_right 60 (wholeSample.drop 2) = [(30, 6), (90, 8)] ∧
    ((60 : ℤ), (8 : ℚ)) ∈ group_by_dynamic_right 60 wholeSample ∧
    ((60 : ℤ), (8 : ℚ)) ∉ group_by_dynamic_right 60 (wholeSample.drop 2) := by
  refine ⟨?_, ?_, ?_, ?_, ?_⟩ <;> decide

/-- C2, amended.  Resampling buckets candles into right-closed windows
(t0 + k·T, t0 + (k+1)·T] anchored at the first candle's timestamp t0 of
the resampled frame, not at a fixed absolute epoch: every emitted row's
datetime is t0 + k·T for some k ∈ ℕ.  Consequently results are NOT
stable across window slides (see the counterexample). -/
theorem c2_amended (T : ℤ) (hT : 0 < T) (t0 : ℤ) (c0 : ℚ) (rows : List (ℤ × ℚ))
    (h0 : rows.head? = some (t0, c0)) :
    ∀ r ∈ group_by_dynamic_right T rows, ∃ k : ℕ, r.1 = t0 + (k : ℤ) * T := by
  intro r hr
  obtain ⟨rest, rfl⟩ : ∃ l, rows = (t0, c0) :: l := by
    cases rows with
    | nil => simp at h0
    | cons a l =>
      simp only [List.head?_cons, Option.some_inj] at h0
      exact ⟨l, by rw [h0]⟩
  simp only [group_by_dynamic_right] at hr
  rcases List.mem_map.mp hr with ⟨kc, hkc, heq⟩
  have hk0 : 0 ≤ kc.1 :=
    keyed_key_nonneg T t0 hT _ kc (lastPerRun_subset _ _ hkc)
  refine ⟨kc.1.toNat, ?_⟩
  rw [← heq]
  simp [Int.toNat_of_nonneg hk0]

/-- C2, witness: the anchoring theorem applied to a concrete window
whose first candle sits at time 0. -/
theorem c2_witness :
    ((60 : ℤ), (2 : ℚ)) ∈ group_by_dynamic_right 60 [(0, 1), (61, 2)] ∧
    ∃ k : ℕ, (60 : ℤ) = 0 + (k : ℤ) * 60 := by
  refine ⟨by decide, ?_⟩
  exact c2_amended 60 (by norm_num) 0 1 [(0, 1), (61, 2)] rfl (60, 2) (by decide)

/-- C3, counterexample.  On four quarter-hour candles 0..45 with
T = 60 the engine emits the row (0, 3) although no later candle with
open_time ≥ 60 has arrived (the bucket is still open — the claim says
nothing may be emitted, as the spec-modelled resampler shows) and
although 0 is the window's left boundary, not its right edge. -/
theorem c3_counterexample :
    group_by_dynamic_right 60 [(0, 0), (15, 1), (30, 2), (45, 3)] = [(0, 3)] ∧
    resampleSpec 60 [(0, 0), (15, 1), (30, 2), (45, 3)] = [] := by
  constructor <;> decide

/-- C3, amended.  For sorted candles with first timestamp t0, the
output has exactly one row per nonempty window of the
data-point-anchored right-closed grid: (L, c) is emitted iff
L = t0 + k·T for some k ∈ ℕ and c is the close of the LAST candle in
(L, L + T].  The datetime is the window's LEFT boundary (not the right
edge), the final partially-filled window is emitted like any other
(no closed-only filtering), and the first candle t0 itself belongs to
no window. -/
theorem c3_amended (T : ℤ) (hT : 0 < T) (t0 : ℤ) (c0 : ℚ) (rows : List (ℤ × ℚ))
    (h0 : rows.head? = some (t0, c0))
    (hs : rows.Pairwise fun a b => a.1 < b.1) :
    ∀ L c, ((L, c) ∈ group_by_dynamic_right T rows ↔
      (∃ k : ℕ, L = t0 + (k : ℤ) * T) ∧
      ((rows.filter fun r => decide (L < r.1 ∧ r.1 ≤ L + T)).map Prod.snd).getLast? = some c) := by
  intro L c
  obtain ⟨rest, rfl⟩ : ∃ l, rows = (t0, c0) :: l := by
    cases rows with
    | nil => simp at h0
    | cons a l =>
      simp only [List.head?_cons, Option.some_inj] at h0
      exact ⟨l, by rw [h0]⟩
  constructor
  · intro h
    simp only [group_by_dynamic_right] at h
    rcases List.mem_map.mp h with ⟨kc, hkc, heq⟩
    obtain ⟨hL, hc⟩ : t0 + kc.1 * T = L ∧ kc.2 = c := by
      constructor
      · exact congrArg Prod.fst heq
      · exact congrArg Prod.snd heq
    have hk0 : 0 ≤ kc.1 :=
      keyed_key_nonneg T t0 hT _ kc (lastPerRun_subset _ _ hkc)
    refine ⟨⟨kc.1.toNat, by rw [← hL]; simp [Int.toNat_of_nonneg hk0]⟩, ?_⟩
    have hmem := (mem_lastPerRun_iff kc.1 kc.2 _
      (keyed_sorted T t0 hT _ hs)).mp (by rwa [Prod.mk.eta])
    rw [keyed_filter_eq T t0 hT kc.1 hk0] at hmem
    rw [List.getLast?_map] at hmem
    rw [← hL, List.getLast?_map]
    obtain ⟨rl, ho, hf⟩ := Option.map_eq_some'.mp hmem
    rw [ho, Option.map_some']
    simp only [Prod.mk.injEq, true_and] at hf
    rw [hf, hc]
  · rintro ⟨⟨k, rfl⟩, hlast⟩
    simp only [group_by_dynamic_right]
    refine List.mem_map.mpr ⟨((k : ℤ), c), ?_, rfl⟩
    apply (mem_lastPerRun_iff _ _ _ (keyed_sorted T t0 hT _ hs)).mpr
    rw [keyed_filter_eq T t0 hT k (Int.natCast_nonneg k)]
    rw [List.getLast?_map] at hlast ⊢
    obtain ⟨rl, ho, hf⟩ := Option.map_eq_some'.mp hlast
    rw [ho, Option.map_some', hf]

/-- C3, witness: the characterization applied to a concrete window; the
candle at 61 is the last (and only) candle of window (60, 120]. -/
theorem c3_witness :
    (∃ k : ℕ, (60 : ℤ) = 0 + (k : ℤ) * 60) ∧
    ((([((0 : ℤ), (1 : ℚ)), (61, 2)]).filter fun r =>
        decide ((60 : ℤ) < r.1 ∧ r.1 ≤ 60 + 60)).map Prod.snd).getLast? = some 2 :=
  (c3_amended 60 (by norm_num) 0 1 [(0, 1), (61, 2)] rfl (by decide) 60 2).mp (by decide)

/- ================================================================
   Part 3: the forward-fill merge (add_ema_features, steps at lines
   39-67 of src/features/ema.rs).

   Each sparse resampled-EMA series (datetime keys with possibly-null
   EMA values) is left-joined onto the native-cadence table by exact
   datetime match (JoinType::Left on col("datetime")), and the joined
   column is then filled with FillNullStrategy::Forward: each null
   takes the last non-null value above it, in native row order.

   The claim-side notion "last completed derived value at or before
   timestamp t" is the function asof below.
   ================================================================ -/


/-- Exact-match left join of the sparse column onto key t: the value
found for the row with datetime = t (which may itself be null), or
null when no such row exists. -/
def lookupKey (sparse : List (ℤ × Option ℚ)) (t : ℤ) : Option ℚ :=
  match sparse.find? fun p => decide (p.1 = t) with
  | some p => p.2
  | none => none

/-- The joined derived column, one entry per native row. -/
def leftJoinCol (nat : List ℤ) (sparse : List (ℤ × Option ℚ)) : List (Option ℚ) :=
  nat.map fun t => lookupKey sparse t

/-- FillNullStrategy::Forward with the last seen non-null value. -/
def ffillAux : List (Option ℚ) → Option ℚ → List (Option ℚ)
  | [], _ => []
  | none :: xs, carry => carry :: ffillAux xs carry
  | some v :: xs, _ => some v :: ffillAux xs (some v)

/-- fill_null(FillNullStrategy::Forward(None)). -/
def fill_null_forward (l : List (Option ℚ)) : List (Option ℚ) := ffillAux l none

/-- The merge as performed by add_ema_features: exact-match left join
on datetime followed by forward fill. -/
def merge_asof_ffill (nat : List ℤ) (sparse : List (ℤ × Option ℚ)) : List (Option ℚ) :=
  fill_null_forward (leftJoinCol nat sparse)

/-- Modelled from the spec (claim side): the most recently completed
(non-null) derived value at or before t, none when no completed value
exists at or before t. -/
def asof (sparse : List (ℤ × Option ℚ)) (t : ℤ) : Option ℚ :=
  match sparse with
  | [] => none
  | p :: rest =>
    match asof rest t with
    | some v => some v
    | none => if p.1 ≤ t then p.2 else none


/-- asof is none when every derived entry is later than t. -/
lemma asof_none_of_lt (t : ℤ) :
    ∀ (sparse : List (ℤ × Option ℚ)), (∀ p ∈ sparse, t < p.1) → asof sparse t = none := by
  intro sparse
  induction sparse with
  | nil => intro _; rfl
  | cons p rest ih =>
    intro h
    rw [asof, ih fun q hq => h q (List.mem_cons_of_mem p hq)]
    have := h p (by simp)
    simp only [if_neg (by omega : ¬ p.1 ≤ t)]

/-- asof is non-null as soon as some completed entry is at or
before t. -/
lemma asof_isSome (t : ℤ) :
    ∀ (sparse : List (ℤ × Option ℚ)) (p : ℤ × Option ℚ), p ∈ sparse → p.1 ≤ t → p.2.isSome →
      (asof sparse t).isSome := by
  intro sparse
  induction sparse with
  | nil => simp
  | cons q rest ih =>
    intro p hp hle hsome
    rw [asof]
    rcases List.mem_cons.mp hp with h | h
    · rcases hrest : asof rest t with _ | v
      · subst h
        simp only [if_pos hle]
        exact hsome
      · simp
    · have := ih p h hle hsome
      rcases hrest : asof rest t with _ | v
      · rw [hrest] at this
        simp at this
      · simp

/-- A completed entry at exactly t wins (keys strictly sorted). -/
lemma asof_eq_of_mem (t : ℤ) (v : ℚ) :
    ∀ (sparse : List (ℤ × Option ℚ)), (sparse.Pairwise fun a b => a.1 < b.1) →
      (t, some v) ∈ sparse → asof sparse t = some v := by
  intro sparse
  induction sparse with
  | nil => simp
  | cons q rest ih =>
    intro hsp hmem
    rw [asof]
    rcases List.mem_cons.mp hmem with h | h
    · have hrest : asof rest t = none := by
        refine asof_none_of_lt t rest fun p hp => ?_
        have := List.rel_of_pairwise_cons hsp hp
        rw [← h] at this
        simpa using this
      rw [hrest, ← h]
      simp
    · rw [ih hsp.of_cons h]

/-- asof does not change across a key-free gap. -/
lemma asof_congr_gap (b t : ℤ) (hbt : b ≤ t) :
    ∀ (sparse : List (ℤ × Option ℚ)), (∀ p ∈ sparse, p.1 ≤ b ∨ t < p.1) →
      asof sparse t = asof sparse b := by
  intro sparse
  induction sparse with
  | nil => intro _; rfl
  | cons q rest ih =>
    intro h
    rw [asof, asof, ih fun p hp => h p (List.mem_cons_of_mem q hp)]
    rcases hrest : asof rest b with _ | v
    · rcases h q (by simp) with hq | hq
      · rw [if_pos hq, if_pos (le_trans hq hbt)]
      · rw [if_neg (by omega), if_neg (by omega)]
    · rfl

/-- A null entry at t does not change asof relative to the previous
native timestamp b. -/
lemma asof_congr_null (b t : ℤ) (hbt : b < t) :
    ∀ (sparse : List (ℤ × Option ℚ)), (sparse.Pairwise fun a b => a.1 < b.1) →
      (t, (none : Option ℚ)) ∈ sparse → (∀ p ∈ sparse, p.1 ≤ b ∨ t ≤ p.1) →
      asof sparse t = asof sparse b := by
  intro sparse
  induction sparse with
  | nil => simp
  | cons q rest ih
  =>
    intro hsp hmem hgap
    rw [asof, asof]
    rcases List.mem_cons.mp hmem with h | h
    · have hkeys : ∀ p ∈ rest, t < p.1 := by
        intro p hp
        have := List.rel_of_pairwise_cons hsp hp
        rw [← h] at this
        simpa using this
      have h1 : asof rest t = none := asof_none_of_lt t rest hkeys
      have h2 : asof rest b = none := asof_none_of_lt b rest fun p hp => by
        have := hkeys p hp
        omega
      rw [h1, h2, ← h]
      simp only
      rw [if_pos (le_refl t), if_neg (by omega)]
    · have hq : q.1 < t := by
        have := List.rel_of_pairwise_cons hsp h
        simpa using this
      have hqb : q.1 ≤ b := by
        rcases hgap q (by simp) with h1 | h1
        · exact h1
        · omega
      rw [ih hsp.of_cons h fun p hp => hgap p (List.mem_cons_of_mem q hp)]
      rcases hrest : asof rest b with _ | v
      · rw [if_pos hqb, if_pos (by omega)]
      · rfl

/-- A successful exact-match join pinpoints an entry of the sparse
series. -/
lemma lookupKey_some (sparse : List (ℤ × Option ℚ)) (t : ℤ) (v : ℚ)
    (h : lookupKey sparse t = some v) : (t, some v) ∈ sparse := by
  rw [lookupKey] at h
  rcases hf : sparse.find? fun p => decide (p.1 = t) with _ | p
  · rw [hf] at h
    simp at h
  · rw [hf] at h
    have hmem := List.mem_of_find?_eq_some hf
    have hkey := List.find?_some hf
    simp only [decide_eq_true_eq] at hkey
    have : p = (t, some v) := by
      rcases p with ⟨a, w⟩
      simp only at hkey h
      rw [hkey, h]
    rw [← this]
    exact hmem

/-- A failed (null) exact-match join: either the row at t carries a
null value, or no row has key t. -/
lemma lookupKey_none (sparse : List (ℤ × Option ℚ)) (t : ℤ)
    (h : lookupKey sparse t = none) :
    (t, (none : Option ℚ)) ∈ sparse ∨ ∀ p ∈ sparse, p.1 ≠ t := by
  rw [lookupKey] at h
  rcases hf : sparse.find? fun p => decide (p.1 = t) with _ | p
  · right
    intro p hp
    have := List.find?_eq_none.mp hf p hp
    simpa using this
  · rw [hf] at h
    left
    have hmem := List.mem_of_find?_eq_some hf
    have hkey := List.find?_some hf
    simp only [decide_eq_true_eq] at hkey
    have : p = (t, none) := by
      rcases p with ⟨a, w⟩
      simp only at hkey h
      rw [hkey, h]
    rw [← this]
    exact hmem

/-- asof is none when every completed entry is later than t. -/
lemma asof_none_of_completed (t : ℤ) :
    ∀ (sparse : List (ℤ × Option ℚ)), (∀ p ∈ sparse, p.2.isSome → t < p.1) →
      asof sparse t = none := by
  intro sparse
  induction sparse with
  | nil => intro _; rfl
  | cons q rest ih =>
    intro h
    rw [asof, ih fun p hp => h p (List.mem_cons_of_mem q hp)]
    rcases hq2 : q.2 with _ | v
    · simp [hq2]
    · have := h q (by simp) (by simp [hq2])
      rw [if_neg (by omega)]

/-- Invariant of the forward-fill scan: if the carry equals asof at
the previous native timestamp b, the scan produces asof pointwise. -/
lemma ffill_go (sparse : List (ℤ × Option ℚ)) (hsp : sparse.Pairwise fun a b => a.1 < b.1) :
    ∀ (nat : List ℤ) (b : ℤ),
      nat.Pairwise (· < ·) → (∀ t ∈ nat, b < t) →
      (∀ p ∈ sparse, p.1 ≤ b ∨ p.1 ∈ nat) →
      ffillAux (leftJoinCol nat sparse) (asof sparse b) = nat.map (asof sparse) := by
  intro nat
  induction nat with
  | nil => intro b _ _ _; rfl
  | cons t rest ih =>
    intro b hnat hb hkeys
    have hbt : b < t := hb t (by simp)
    have hrest_gt : ∀ u ∈ rest, t < u := fun u hu => List.rel_of_pairwise_cons hnat hu
    have hkeys' : ∀ p ∈ sparse, p.1 ≤ t ∨ p.1 ∈ rest := by
      intro p hp
      rcases hkeys p hp with h | h
      · exact Or.inl (by omega)
      · rcases List.mem_cons.mp h with h | h
        · exact Or.inl (le_of_eq h)
        · exact Or.inr h
    simp only [leftJoinCol, List.map_cons]
    rcases hl : lookupKey sparse t with _ | v
    · have hstep : asof sparse t = asof sparse b := by
        rcases lookupKey_none sparse t hl with hnull | hnone
        · refine asof_congr_null b t hbt sparse hsp hnull ?_
          intro p hp
          rcases hkeys p hp with h | h
          · exact Or.inl h
          · rcases List.mem_cons.mp h with h | h
            · exact Or.inr (le_of_eq h.symm)
            · exact Or.inr (le_of_lt (hrest_gt _ h))
        · refine asof_congr_gap b t hbt.le sparse ?_
          intro p hp
          rcases hkeys p hp with h | h
          · exact Or.inl h
          · rcases List.mem_cons.mp h with h | h
            · exact absurd h (hnone p hp)
            · exact Or.inr (hrest_gt _ h)
      rw [ffillAux, ← hstep,
        show List.map (fun u => lookupKey sparse u) rest = leftJoinCol rest sparse from rfl,
        ih t hnat.of_cons hrest_gt hkeys']
    · have hstep : asof sparse t = some v :=
        asof_eq_of_mem t v sparse hsp (lookupKey_some sparse t v hl)
      rw [ffillAux, ← hstep,
        show List.map (fun u => lookupKey sparse u) rest = leftJoinCol rest sparse from rfl,
        ih t hnat.of_cons hrest_gt hkeys']

/-- C4, confirmed.  For a strictly sorted native datetime column and a
strictly sorted sparse derived series whose keys lie on the native
grid, the forward-fill merge gives every native row the most recently
completed derived value at or before its own timestamp (asof); asof is
null exactly for rows preceding the first completed derived timestamp
and non-null from that timestamp on. -/
theorem c4_theorem (nat : List ℤ) (sparse : List (ℤ × Option ℚ))
    (hnat : nat.Pairwise (· < ·))
    (hsp : sparse.Pairwise fun a b => a.1 < b.1)
    (hsub : ∀ p ∈ sparse, p.1 ∈ nat) :
    merge_asof_ffill nat sparse = nat.map (asof sparse) ∧
    (∀ t : ℤ, (∀ p ∈ sparse, p.2.isSome → t < p.1) → asof sparse t = none) ∧
    (∀ t : ℤ, ∀ p ∈ sparse, p.1 ≤ t → p.2.isSome → (asof sparse t).isSome) := by
  refine ⟨?_, fun t h => asof_none_of_completed t sparse h,
    fun t p hp hle hs => asof_isSome t sparse p hp hle hs⟩
  cases nat with
  | nil =>
    have : sparse = [] := by
      cases sparse with
      | nil => rfl
      | cons p ps => exact absurd (hsub p (by simp)) (by simp)
    rw [this]
    rfl
  | cons t0 restNat =>
    have hge : ∀ p ∈ sparse, t0 ≤ p.1 := by
      intro p hp
      rcases List.mem_cons.mp (hsub p hp) with h | h
      · exact le_of_eq h.symm
      · exact le_of_lt (List.rel_of_pairwise_cons hnat h)
    have hnone : asof sparse (t0 - 1) = none := by
      refine asof_none_of_lt (t0 - 1) sparse fun p hp => ?_
      have := hge p hp
      omega
    have hb : ∀ t ∈ t0 :: restNat, t0 - 1 < t := by
      intro t ht
      rcases List.mem_cons.mp ht with h | h
      · omega
      · have := List.rel_of_pairwise_cons hnat h
        omega
    rw [merge_asof_ffill, fill_null_forward, ← hnone]
    exact ffill_go sparse hsp (t0 :: restNat) (t0 - 1) hnat hb
      fun p hp => Or.inr (hsub p hp)

/-- C4, witness: the merge theorem applied to a concrete
quarter-hour grid with a sparse series whose first row is null
(min_periods) and whose completed values sit at 45 and 75. -/
theorem c4_witness :
    merge_asof_ffill [0, 15, 30, 45, 60, 75] [(15, none), (45, some 1), (75, some 2)]
      = ([0, 15, 30, 45, 60, 75]).map (asof [(15, none), (45, some 1), (75, some 2)]) ∧
    merge_asof_ffill [0, 15, 30, 45, 60, 75] [(15, none), (45, some 1), (75, some 2)]
      = [none, none, none, some 1, some 1, some 2] :=
  ⟨(c4_theorem [0, 15, 30, 45, 60, 75] [(15, none), (45, some 1), (75, some 2)]
      (by decide) (by decide) (by decide)).1, by decide⟩

/- ================================================================
   Part 4: the pivot strength engine (src/features/pivots.rs).

   consecutive_strength_vec walks, for each position i, up to `window`
   consecutive predecessors (j = i-1, i-2, …) and successors
   (j = i+1, …, at most min(n, i+1+window)-1), counting while the
   condition holds, breaking at the first NaN or failed comparison; a
   NaN at position i itself yields 0 on both sides.  NaN prices are
   modelled as none.  add_pivot_features instantiates the conditions
   with prev < curr (pivot high) and prev > curr (pivot low), and
   computes the per-position score min(left, right) (the vectors the
   source computes as high_strength/low_strength and attaches as the
   pivot_high_max/pivot_low_max columns; the snapshot's binding names
   differ, but min(left, right) is the only value it computes).
   ================================================================ -/


/-- The per-neighbor test of the scan: false at a NaN, otherwise the
comparison against the current price. -/
def predOK (cond : ℚ → ℚ → Bool) (prices : List (Option ℚ)) (c : ℚ) (j : ℕ) : Bool :=
  match prices.getD j none with
  | none => false
  | some p => cond p c

/-- The left loop: for j in (0..i).rev().take(window), breaking on NaN
or a failed condition.  First argument of the recursion is the number
of predecessors still available (the current index), second the
remaining lookback budget. -/
def countDown (cond : ℚ → ℚ → Bool) (prices : List (Option ℚ)) (c : ℚ) : ℕ → ℕ → ℕ
  | 0, _ => 0
  | _ + 1, 0 => 0
  | j + 1, fuel + 1 =>
    match prices.getD j none with
    | none => 0
    | some p => if cond p c then countDown cond prices c j fuel + 1 else 0

/-- The right loop: for j in i+1..min(n, i+1+window), breaking on NaN
or a failed condition. -/
def countUp (cond : ℚ → ℚ → Bool) (prices : List (Option ℚ)) (c : ℚ) : ℕ → ℕ → ℕ
  | _, 0 => 0
  | j, fuel + 1 =>
    if j < prices.length then
      match prices.getD j none with
      | none => 0
      | some p => if cond p c then countUp cond prices c (j + 1) fuel + 1 else 0
    else 0

/-- consecutive_strength_vec: left and right strength vectors. -/
def consecutive_strength_vec (leftCond rightCond : ℚ → ℚ → Bool)
    (prices : List (Option ℚ)) (window : ℕ) : List ℕ × List ℕ :=
  ((List.range prices.length).map fun i =>
      match prices.getD i none with
      | none => 0
      | some c => countDown leftCond prices c i window,
   (List.range prices.length).map fun i =>
      match prices.getD i none with
      | none => 0
      | some c => countUp rightCond prices c (i + 1) window)

/-- The left loop counts the longest streak of consecutive
predecessors (truncated to the lookback) satisfying the test. -/
lemma countDown_eq (cond : ℚ → ℚ → Bool) (prices : List (Option ℚ)) (c : ℚ) :
    ∀ (j fuel : ℕ),
      countDown cond prices c j fuel =
        ((((List.range j).reverse).take fuel).takeWhile fun jj => predOK cond prices c jj).length := by
  intro j
  induction j with
  | zero => intro fuel; simp [countDown]
  | succ j ih =>
    intro fuel
    cases fuel with
    | zero => simp [countDown]
    | succ fuel =>
      rw [countDown]
      rw [List.range_succ, List.reverse_append, List.reverse_singleton, List.singleton_append,
        List.take_succ_cons, List.takeWhile_cons]
      rcases hg : prices.getD j none with _ | p
      · have hp : predOK cond prices c j = false := by unfold predOK; rw [hg]
        simp only [hp]
        simp
      · by_cases hc : cond p c
        · have hp : predOK cond prices c j = true := by unfold predOK; rw [hg]; exact hc
          simp only [hp, hg, hc]
          simp [ih fuel]
        · have hp : predOK cond prices c j = false := by unfold predOK; rw [hg]; simpa using hc
          simp only [hp, hg]
          simp [hc]

/-- The right loop counts the longest streak of consecutive
successors (truncated to the lookback and the end of the series)
satisfying the test. -/
lemma countUp_eq (cond : ℚ → ℚ → Bool) (prices : List (Option ℚ)) (c : ℚ) :
    ∀ (fuel j : ℕ),
      countUp cond prices c j fuel =
        ((List.range' j (min fuel (prices.length - j))).takeWhile
          fun jj => predOK cond prices c jj).length := by
  intro fuel
  induction fuel with
  | zero => intro j; simp [countUp]
  | succ fuel ih =>
    intro j
    rw [countUp]
    by_cases hj : j < prices.length
    · have hmin : min (fuel + 1) (prices.length - j) = min fuel (prices.length - (j + 1)) + 1 := by
        omega
      rw [if_pos hj, hmin, List.range'_succ, List.takeWhile_cons]
      rcases hg : prices.getD j none with _ | p
      · have hp : predOK cond prices c j = false := by unfold predOK; rw [hg]
        simp only [hp]
        simp
      · by_cases hc : cond p c
        · have hp : predOK cond prices c j = true := by unfold predOK; rw [hg]; exact hc
          simp only [hp, hg, hc]
          simp [ih (j + 1)]
        · have hp : predOK cond prices c j = false := by unfold predOK; rw [hg]; simpa using hc
          simp only [hp, hg]
          simp [hc]
    · have hmin : min (fuel + 1) (prices.length - j) = 0 := by omega
      rw [if_neg hj, hmin]
      simp

/-- The maximum lookback used by add_pivot_features. -/
def PIVOT_WINDOW : ℕ := 5000

/-- The pivot-high call site: both conditions are prev < curr. -/
def pivot_high_strengths (prices : List (Option ℚ)) (window : ℕ) : List ℕ × List ℕ :=
  consecutive_strength_vec (fun prev curr => decide (prev < curr))
    (fun next curr => decide (next < curr)) prices window

/-- The pivot-low call site: both conditions are prev > curr. -/
def pivot_low_strengths (prices : List (Option ℚ)) (window : ℕ) : List ℕ × List ℕ :=
  consecutive_strength_vec (fun prev curr => decide (prev > curr))
    (fun next curr => decide (next > curr)) prices window

/-- The aggregated pivot score: elementwise min of the two sides. -/
def pivot_max (left right : List ℕ) : List ℕ := List.zipWith min left right

/-- C6, confirmed.  At every position i: the left strength is the
length of the streak of consecutive predecessors (at most W of them)
passing the test, stopping at the first NaN or failure; the right
strength is the symmetric streak over successors with the same bound;
a NaN at i gives 0 on both sides (the match arms); and the pivot max
score is min(left, right) at every position. -/
theorem c6_theorem (lc rc : ℚ → ℚ → Bool) (prices : List (Option ℚ)) (W i : ℕ)
    (hi : i < prices.length) :
    ((consecutive_strength_vec lc rc prices W).1.getD i 0 =
      match prices.getD i none with
      | none => 0
      | some c =>
        ((((List.range i).reverse).take W).takeWhile fun j => predOK lc prices c j).length) ∧
    ((consecutive_strength_vec lc rc prices W).2.getD i 0 =
      match prices.getD i none with
      | none => 0
      | some c =>
        ((List.range' (i + 1) (min W (prices.length - (i + 1)))).takeWhile
          fun j => predOK rc prices c j).length) ∧
    (pivot_max (consecutive_strength_vec lc rc prices W).1
        (consecutive_strength_vec lc rc prices W).2).getD i 0 =
      min ((consecutive_strength_vec lc rc prices W).1.getD i 0)
        ((consecutive_strength_vec lc rc prices W).2.getD i 0) := by
  have hleft : (consecutive_strength_vec lc rc prices W).1.getD i 0 =
      match prices.getD i none with
      | none => 0
      | some c => countDown lc prices c i W := by
    rw [consecutive_strength_vec]
    simp only [List.getD_eq_getElem?_getD, List.getElem?_map, List.getElem?_range hi]
    rfl
  have hright : (consecutive_strength_vec lc rc prices W).2.getD i 0 =
      match prices.getD i none with
      | none => 0
      | some c => countUp rc prices c (i + 1) W := by
    rw [consecutive_strength_vec]
    simp only [List.getD_eq_getElem?_getD, List.getElem?_map, List.getElem?_range hi]
    rfl
  refine ⟨?_, ?_, ?_⟩
  · rw [hleft]
    rcases prices.getD i none with _ | c
    · rfl
    · exact countDown_eq lc prices c i W
  · rw [hright]
    rcases prices.getD i none with _ | c
    · rfl
    · exact countUp_eq rc prices c W (i + 1)
  · rw [pivot_max]
    have hlen : i < ((consecutive_strength_vec lc rc prices W).1).length := by
      simp [consecutive_strength_vec, hi]
    have hlen2 : i < ((consecutive_strength_vec lc rc prices W).2).length := by
      simp [consecutive_strength_vec, hi]
    simp only [List.getD_eq_getElem?_getD]
    rw [List.getElem?_zipWith]
    rcases h1 : ((consecutive_strength_vec lc rc prices W).1)[i]? with _ | a
    · rw [List.getElem?_eq_none_iff] at h1
      omega
    · rcases h2 : ((consecutive_strength_vec lc rc prices W).2)[i]? with _ | b
      · rw [List.getElem?_eq_none_iff] at h2
        omega
      · rfl

/-- C6, witness: the characterization applied at i = 1 of a concrete
three-price series. -/
theorem c6_witness :
    (consecutive_strength_vec (fun prev curr => decide (prev < curr))
      (fun next curr => decide (next < curr)) [some 1, some 3, some 2] PIVOT_WINDOW).1.getD 1 0
      = ((((List.range 1).reverse).take PIVOT_WINDOW).takeWhile
          fun j => predOK (fun prev curr => decide (prev < curr))
            [some 1, some 3, some 2] 3 j).length :=
  (c6_theorem (fun prev curr => decide (prev < curr)) (fun next curr => decide (next < curr))
    [some 1, some 3, some 2] PIVOT_WINDOW 1 (by norm_num)).1

/-- Elementwise negation of a price series (NaN stays NaN). -/
def negateSeries (prices : List (Option ℚ)) : List (Option ℚ) :=
  prices.map (Option.map fun q => -q)

/-- Reading a negated series. -/
lemma negate_getD (prices : List (Option ℚ)) (j : ℕ) :
    (negateSeries prices).getD j none = Option.map (fun q => -q) (prices.getD j none) := by
  rw [negateSeries]
  simp only [List.getD_eq_getElem?_getD, List.getElem?_map]
  cases prices[j]? <;> rfl

/-- Negation preserves length. -/
lemma negate_length (prices : List (Option ℚ)) :
    (negateSeries prices).length = prices.length := List.length_map _ _

/-- Left scan with the pivot-high test on the negated series equals
the left scan with the pivot-low test on the original. -/
lemma countDown_neg (prices : List (Option ℚ)) (c : ℚ) :
    ∀ (j fuel : ℕ),
      countDown (fun prev curr => decide (prev < curr)) (negateSeries prices) (-c) j fuel
        = countDown (fun prev curr => decide (prev > curr)) prices c j fuel := by
  intro j
  induction j with
  | zero => intro fuel; simp [countDown]
  | succ j ih =>
    intro fuel
    cases fuel with
    | zero => simp [countDown]
    | succ fuel =>
      rw [countDown, countDown, negate_getD]
      rcases hg : prices.getD j none with _ | p
      · rfl
      · simp only [Option.map_some']
        by_cases hc : p > c
        · rw [if_pos (by simpa using hc), if_pos (by simpa using hc), ih fuel]
        · rw [if_neg (by simpa using hc), if_neg (by simpa using hc)]

/-- Right scan with the pivot-high test on the negated series equals
the right scan with the pivot-low test on the original. -/
lemma countUp_neg (prices : List (Option ℚ)) (c : ℚ) :
    ∀ (fuel j : ℕ),
      countUp (fun next curr => decide (next < curr)) (negateSeries prices) (-c) j fuel
        = countUp (fun next curr => decide (next > curr)) prices c j fuel := by
  intro fuel
  induction fuel with
  | zero => intro j; simp [countUp]
  | succ fuel ih =>
    intro j
    rw [countUp, countUp, negate_length, negate_getD]
    by_cases hj : j < prices.length
    · rw [if_pos hj, if_pos hj]
      rcases hg : prices.getD j none with _ | p
      · rfl
      · simp only [Option.map_some']
        by_cases hc : p > c
        · rw [if_pos (by simpa using hc), if_pos (by simpa using hc), ih (j + 1)]
        · rw [if_neg (by simpa using hc), if_neg (by simpa using hc)]
    · rw [if_neg hj, if_neg hj]

/-- C7, confirmed.  Computing pivot-high strength (left and right) on
the elementwise-negated series equals computing pivot-low strength on
the original series, at every position. -/
theorem c7_theorem (prices : List (Option ℚ)) (W : ℕ) :
    pivot_high_strengths (negateSeries prices) W = pivot_low_strengths prices W := by
  rw [pivot_high_strengths, pivot_low_strengths, consecutive_strength_vec,
    consecutive_strength_vec, negate_length]
  refine Prod.ext ?_ ?_ <;> simp only
  · refine List.map_congr_left fun i hi => ?_
    rw [negate_getD]
    rcases prices.getD i none with _ | c
    · rfl
    · simp only [Option.map_some']
      exact countDown_neg prices c i W
  · refine List.map_congr_left fun i hi => ?_
    rw [negate_getD]
    rcases prices.getD i none with _ | c
    · rfl
    · simp only [Option.map_some']
      exact countUp_neg prices c W (i + 1)
/- ================================================================
   Part 5: the bounded raw window and the closed-candle event loop
   (src/live_stream.rs, fn run).

   On each closed candle: raw_window.push_back(k); if len >
   HISTORICAL_COUNT then pop_front to evict exactly one candle from
   the head.  The five persistence writes are spawned as independent
   tasks whose failures are only logged (eprintln), and the loop state
   does not depend on their outcomes.  The kline message gate reads
   kline["x"] via serde_json Map indexing (which panics when the key is
   absent) and skips the candle only when as_bool() yields false.

   Prices are rationals here; the parse of the decimal payload strings
   is modelled as always succeeding with the string's numeric value
   (JVal.jstr carries that value), since no claim concerns malformed
   numerals.
   ================================================================ -/


/-- One OHLCV bar (src/kline.rs). -/
structure Kline where
  open_time : ℤ
  open_price : ℚ
  high : ℚ
  low : ℚ
  close : ℚ
  volume : ℚ
  close_time : ℤ
deriving DecidableEq, Repr

/-- Raw-window capacity in fn run. -/
def HISTORICAL_COUNT : ℕ := 50000
/-- Feature-window size in fn run. -/
def FEATURE_WINDOW_SIZE : ℕ := 50000

/-- push_back, then pop_front when the capacity is exceeded. -/
def pushEvict (cap : ℕ) (w : List Kline) (k : Kline) : List Kline :=
  let w2 := w ++ [k]
  if cap < w2.length then w2.drop 1 else w2

/-- The window after a sequence of closed-candle pushes. -/
def runWindow (cap : ℕ) (w : List Kline) (ks : List Kline) : List Kline :=
  ks.foldl (pushEvict cap) w

/-- The window after any push sequence from a within-capacity start is
the suffix of all candles ever pushed that fits the capacity. -/
lemma runWindow_eq (cap : ℕ) :
    ∀ (ks w : List Kline), w.length ≤ cap →
      runWindow cap w ks = (w ++ ks).drop (w.length + ks.length - cap) := by
  intro ks
  induction ks with
  | nil =>
    intro w hw
    rw [runWindow, List.foldl_nil, List.append_nil, List.length_nil, Nat.add_zero,
      Nat.sub_eq_zero_of_le hw, List.drop_zero]
  | cons k ks ih =>
    intro w hw
    rw [runWindow, List.foldl_cons, show List.foldl (pushEvict cap) (pushEvict cap w k) ks
      = runWindow cap (pushEvict cap w k) ks from rfl]
    by_cases hfull : cap < w.length + 1
    · have hwc : w.length = cap := by omega
      have hpe : pushEvict cap w k = (w ++ [k]).drop 1 := by
        rw [pushEvict]
        simp only [List.length_append, List.length_singleton]
        rw [if_pos (by omega)]
      rw [hpe]
      have hlen : ((w ++ [k]).drop 1).length ≤ cap := by
        simp only [List.length_drop, List.length_append, List.length_singleton]
        omega
      rw [ih _ hlen]
      have h2 : ((w ++ [k]) ++ ks).drop 1 = ((w ++ [k]).drop 1) ++ ks := by
        rw [List.drop_append_eq_append_drop]
        rw [show 1 - (w ++ [k]).length = 0 from by
          simp only [List.length_append, List.length_singleton]; omega]
        rw [List.drop_zero]
      rw [← h2, List.drop_drop, List.append_assoc, List.singleton_append]
      have hA : 1 + (((w ++ [k]).drop 1).length + ks.length - cap)
          = w.length + (k :: ks).length - cap := by
        simp only [List.length_drop, List.length_append, List.length_singleton, List.length_cons,
          List.length_nil]
        omega
      rw [hA]
    · have hpe : pushEvict cap w k = w ++ [k] := by
        rw [pushEvict]
        simp only [List.length_append, List.length_singleton]
        rw [if_neg (by omega)]
      rw [hpe]
      have hlen : (w ++ [k]).length ≤ cap := by
        simp only [List.length_append, List.length_singleton]
        omega
      rw [ih _ hlen, List.append_assoc, List.singleton_append]
      have hB : (w ++ [k]).length + ks.length - cap = w.length + (k :: ks).length - cap := by
        simp only [List.length_append, List.length_singleton, List.length_cons, List.length_nil]
        omega
      rw [hB]

/-- C8, confirmed.  Starting within capacity, once the pushes exceed
the capacity the window holds exactly the last cap candles (one head
eviction per overflowing push), len() = cap, and — the candle stream
being strictly increasing in open_time (data-model invariant) — the
surviving head has the smallest open_time among the survivors. -/
theorem c8_theorem (cap : ℕ) (w ks : List Kline)
    (hw : w.length ≤ cap) (hover : cap < w.length + ks.length)
    (hsorted : (w ++ ks).Pairwise fun a b => a.open_time < b.open_time) :
    runWindow cap w ks = (w ++ ks).drop (w.length + ks.length - cap) ∧
    (runWindow cap w ks).length = cap ∧
    ∀ h ∈ (runWindow cap w ks).head?, ∀ x ∈ runWindow cap w ks, h.open_time ≤ x.open_time := by
  have heq := runWindow_eq cap ks w hw
  refine ⟨heq, ?_, ?_⟩
  · rw [heq, List.length_drop, List.length_append]
    omega
  · intro h hh x hx
    have hpair : (runWindow cap w ks).Pairwise fun a b => a.open_time < b.open_time := by
      rw [heq]
      exact hsorted.sublist (List.drop_sublist _ _)
    cases hrw : runWindow cap w ks with
    | nil =>
      rw [hrw] at hh
      simp at hh
    | cons a t =>
      rw [hrw] at hh hx hpair
      simp only [List.head?_cons, Option.mem_def, Option.some_inj] at hh
      subst hh
      rcases List.mem_cons.mp hx with h1 | h1
      · rw [h1]
      · exact le_of_lt (List.rel_of_pairwise_cons hpair h1)

/-- A candle with the given open_time and zeroed prices. -/
def mkK (t : ℤ) : Kline :=
  { open_time := t, open_price := 0, high := 0, low := 0, close := 0, volume := 0,
    close_time := t + 1 }

/-- C8, witness: capacity 2, one seeded candle, two pushes. -/
theorem c8_witness :
    runWindow 2 [mkK 1] [mkK 2, mkK 3] = [mkK 2, mkK 3] ∧
    (runWindow 2 [mkK 1] [mkK 2, mkK 3]).length = 2 ∧
    ∀ h ∈ (runWindow 2 [mkK 1] [mkK 2, mkK 3]).head?,
      ∀ x ∈ runWindow 2 [mkK 1] [mkK 2, mkK 3], h.open_time ≤ x.open_time := by
  have := c8_theorem 2 [mkK 1] [mkK 2, mkK 3] (by norm_num) (by norm_num) (by decide)
  refine ⟨?_, this.2.1, this.2.2⟩
  rw [this.1]
  decide

/-- The five write tasks spawned per closed-candle event in fn run,
in source order: save_dataframe_parquet_async (feature table),
save_dataframe_csv_to_path_async (feature table),
append_features_row_to_csv_async, append_kline_to_csv_async,
save_klines_to_parquet_async (raw window). -/
inductive WriteKind where
  | featureParquetSnapshot
  | featureCsvSnapshot
  | featureRowAppend
  | rawKlineCsvAppend
  | rawParquetSnapshot
deriving DecidableEq, Repr

/-- The write fan-out issued per closed-candle event. -/
def eventWriteOps : List WriteKind :=
  [WriteKind.featureParquetSnapshot, WriteKind.featureCsvSnapshot,
   WriteKind.featureRowAppend, WriteKind.rawKlineCsvAppend,
   WriteKind.rawParquetSnapshot]

/-- The state effect of one closed-candle event: the window mutation,
plus the list of failed writes (each is only logged via eprintln); the
new window does not depend on the write outcomes. -/
def handleClosedCandle (w : List Kline) (k : Kline) (results : WriteKind → Bool) :
    List Kline × List WriteKind :=
  (pushEvict HISTORICAL_COUNT w k,
   eventWriteOps.filter fun op => !(results op))

/-- The ingestion loop over a sequence of events with arbitrary write
outcomes per event. -/
def runEvents (w : List Kline) (events : List (Kline × (WriteKind → Bool))) : List Kline :=
  events.foldl (fun acc ev => (handleClosedCandle acc ev.1 ev.2).1) w

/-- C5, counterexample.  The orchestrator issues FIVE write
operations per closed-candle event, not four: the feature table is
snapshotted twice (parquet and CSV) in addition to the feature-row
append, raw-candle append and raw-window parquet snapshot. -/
theorem c5_counterexample : eventWriteOps.length = 5 ∧ eventWriteOps.length ≠ 4 := by decide

/-- C5, amended.  Each closed-candle event issues exactly five write
operations (feature parquet snapshot, feature CSV snapshot, feature
row append, raw candle append, raw window parquet snapshot); a failed
write is logged and aborts neither the other writes nor the loop: the
window state after the event, and after any sequence of subsequent
events, is identical whatever the write outcomes. -/
theorem c5_amended (w : List Kline) (k : Kline) (res res2 : WriteKind → Bool)
    (events : List (Kline × (WriteKind → Bool))) :
    eventWriteOps = [WriteKind.featureParquetSnapshot, WriteKind.featureCsvSnapshot,
      WriteKind.featureRowAppend, WriteKind.rawKlineCsvAppend, WriteKind.rawParquetSnapshot] ∧
    (handleClosedCandle w k res).1 = (handleClosedCandle w k res2).1 ∧
    runEvents w events = runWindow HISTORICAL_COUNT w (events.map Prod.fst) := by
  refine ⟨rfl, rfl, ?_⟩
  induction events generalizing w with
  | nil => rfl
  | cons e es ih =>
    rw [runEvents, List.foldl_cons, List.map_cons, runWindow, List.foldl_cons]
    exact ih _

/-- The JSON values relevant to the kline payload: decimal strings
(carrying their numeric value), u64 numbers, booleans, null. -/
inductive JVal where
  | jstr (q : ℚ)
  | jnum (n : ℕ)
  | jbool (b : Bool)
  | jnull
deriving DecidableEq, Repr

/-- serde_json Value::as_bool. -/
def asBool : JVal → Option Bool
  | JVal.jbool b => some b
  | _ => none

/-- Value::as_str followed by the (successful) f64 parse. -/
def asStrNum : JVal → Option ℚ
  | JVal.jstr q => some q
  | _ => none

/-- serde_json Value::as_u64. -/
def asU64 : JVal → Option ℕ
  | JVal.jnum n => some n
  | _ => none

/-- serde_json Map indexing kline[key]: panics (modelled as error)
when the key is absent. -/
def mapIndex (m : List (String × JVal)) (key : String) : Except Unit JVal :=
  match m.find? fun p => decide (p.1 = key) with
  | some p => Except.ok p.2
  | none => Except.error ()

/-- What the m5/m15 message arm does with one kline object. -/
inductive KlineOutcome where
  | panicked
  | skippedNotClosed
  | skippedBadFields
  | processed (k : Kline)
deriving DecidableEq, Repr

/-- The seven-field extraction after the x gate: Map indexing panics
on any absent field; a present field of the wrong JSON type makes the
if-let fail and the candle is silently skipped. -/
def processFields (m : List (String × JVal)) : KlineOutcome :=
  match mapIndex m "o", mapIndex m "h", mapIndex m "l", mapIndex m "c",
        mapIndex m "v", mapIndex m "t", mapIndex m "T" with
  | Except.ok ov, Except.ok hv, Except.ok lv, Except.ok cv,
    Except.ok vv, Except.ok tv, Except.ok Tv =>
    match asStrNum ov, asStrNum hv, asStrNum lv, asStrNum cv, asStrNum vv,
          asU64 tv, asU64 Tv with
    | some o, some h, some l, some c, some v, some t, some tc =>
      KlineOutcome.processed
        { open_time := (t : ℤ), open_price := o, high := h, low := l,
          close := c, volume := v, close_time := (tc : ℤ) }
    | _, _, _, _, _, _, _ => KlineOutcome.skippedBadFields
  | _, _, _, _, _, _, _ => KlineOutcome.panicked

/-- The m5/m15 arm of fn run: read kline["x"] (panicking if absent);
skip when as_bool() gives false; otherwise — explicit true OR a
non-boolean value — fall through to field extraction and processing. -/
def process_kline_object (m : List (String × JVal)) : KlineOutcome :=
  match mapIndex m "x" with
  | Except.error _ => KlineOutcome.panicked
  | Except.ok xv =>
    match asBool xv with
    | some false => KlineOutcome.skippedNotClosed
    | _ => processFields m

/-- A kline object with the seven OHLCV fields and no "x" field. -/
def sampleKlineNoX : List (String × JVal) :=
  [("o", JVal.jstr 1), ("h", JVal.jstr 2), ("l", JVal.jstr 0), ("c", JVal.jstr 1),
   ("v", JVal.jstr 3), ("t", JVal.jnum 1000), ("T", JVal.jnum 1999)]

/-- The candle the seven fields of sampleKlineNoX denote. -/
def sampleParsed : Kline :=
  { open_time := 1000, open_price := 1, high := 2, low := 0, close := 1, volume := 3,
    close_time := 1999 }

/-- C10, counterexample.  With the seven OHLCV fields present and "x"
ABSENT, kline["x"] panics (serde_json Map indexing), so the message is
not processed as a closed candle; only a PRESENT non-boolean "x"
(e.g. null) falls through to full processing. -/
theorem c10_counterexample :
    process_kline_object sampleKlineNoX = KlineOutcome.panicked ∧
    process_kline_object sampleKlineNoX ≠ KlineOutcome.processed sampleParsed ∧
    process_kline_object (("x", JVal.jnull) :: sampleKlineNoX)
      = KlineOutcome.processed sampleParsed := by
  refine ⟨?_, ?_, ?_⟩ <;> decide

/-- C10, amended.  The gate: an absent "x" key panics via Map
indexing, aborting the run; "x": false skips the candle; "x": true
and any present non-boolean "x" both proceed to the identical
field-extraction-and-processing path (treated as closed). -/
theorem c10_amended (m : List (String × JVal)) :
    (mapIndex m "x" = Except.error () → process_kline_object m = KlineOutcome.panicked) ∧
    (mapIndex m "x" = Except.ok (JVal.jbool false) →
      process_kline_object m = KlineOutcome.skippedNotClosed) ∧
    (mapIndex m "x" = Except.ok (JVal.jbool true) →
      process_kline_object m = processFields m) ∧
    (∀ xv, mapIndex m "x" = Except.ok xv → asBool xv = none →
      process_kline_object m = processFields m) := by
  refine ⟨?_, ?_, ?_, ?_⟩
  · intro h
    rw [process_kline_object, h]
  · intro h
    rw [process_kline_object, h]
    rfl
  · intro h
    rw [process_kline_object, h]
    rfl
  · intro xv h hb
    rw [process_kline_object, h]
    simp only [hb]

/-- C10, witness: the gate theorem applied to the seven-field object
without "x" and with a numeric "x". -/
theorem c10_witness :
    process_kline_object sampleKlineNoX = KlineOutcome.panicked ∧
    process_kline_object (("x", JVal.jnum 7) :: sampleKlineNoX)
      = processFields (("x", JVal.jnum 7) :: sampleKlineNoX) :=
  ⟨(c10_amended sampleKlineNoX).1 rfl,
   (c10_amended (("x", JVal.jnum 7) :: sampleKlineNoX)).2.2.2 (JVal.jnum 7) rfl rfl⟩

/- ================================================================
   Part 6: CSV timestamp rendering (timestamp_to_string in
   src/data_storage.rs).

   Every CSV writer (append_kline_to_csv, append_features_row_to_csv,
   save_klines_to_csv, save_dataframe_csv_to_path) renders the
   open_time/close_time columns through timestamp_to_string, whose
   chrono format string is "%Y-%m-%d %H:%M:%S UTC" — WITHOUT the
   millisecond part — although the function's own doc comment gives the
   example "2025-03-21 14:32:17.456 UTC".  The date arithmetic below is
   the standard civil-from-days conversion used by such libraries.
   ================================================================ -/


/-- Zero-padding to two digits. -/
def pad2 (n : ℕ) : String := if n < 10 then "0" ++ toString n else toString n

/-- Zero-padding to three digits (the %.3f millisecond field). -/
def pad3 (n : ℕ) : String :=
  if n < 10 then "00" ++ toString n else if n < 100 then "0" ++ toString n else toString n

/-- Proleptic-Gregorian (year, month, day) from days since the epoch
1970-01-01. -/
def civilFromDays (z0 : ℤ) : ℤ × ℕ × ℕ :=
  let z := z0 + 719468
  let era : ℤ := z.fdiv 146097
  let doe : ℕ := (z - era * 146097).toNat
  let yoe : ℕ := (doe - doe / 1460 + doe / 36524 - doe / 146096) / 365
  let y : ℤ := (yoe : ℤ) + era * 400
  let doy : ℕ := doe - (365 * yoe + yoe / 4 - yoe / 100)
  let mp : ℕ := (5 * doy + 2) / 153
  let d : ℕ := doy - (153 * mp + 2) / 5 + 1
  let m : ℕ := if mp < 10 then mp + 3 else mp - 9
  (if m ≤ 2 then y + 1 else y, m, d)

/-- timestamp_to_string as implemented: chrono
DateTime::from_timestamp_millis(ms) formatted with
"%Y-%m-%d %H:%M:%S UTC" (no milliseconds). -/
def timestamp_to_string (ms : ℤ) : String :=
  let secs : ℤ := ms.fdiv 1000
  let days : ℤ := secs.fdiv 86400
  let sod : ℕ := (secs - days * 86400).toNat
  let ymd := civilFromDays days
  let hh := sod / 3600
  let mi := sod % 3600 / 60
  let ss := sod % 60
  toString ymd.1 ++ "-" ++ pad2 ymd.2.1 ++ "-" ++ pad2 ymd.2.2 ++ " " ++
    pad2 hh ++ ":" ++ pad2 mi ++ ":" ++ pad2 ss ++ " UTC"

/-- Modelled from the spec: the documented rendering
"YYYY-MM-DD HH:MM:SS.mmm UTC" (chrono "%Y-%m-%d %H:%M:%S%.3f UTC"),
which the function's own doc comment also exemplifies. -/
def timestamp_to_string_spec (ms : ℤ) : String :=
  let secs : ℤ := ms.fdiv 1000
  let days : ℤ := secs.fdiv 86400
  let sod : ℕ := (secs - days * 86400).toNat
  let ymd := civilFromDays days
  let hh := sod / 3600
  let mi := sod % 3600 / 60
  let ss := sod % 60
  let millis : ℕ := (ms - secs * 1000).toNat
  toString ymd.1 ++ "-" ++ pad2 ymd.2.1 ++ "-" ++ pad2 ymd.2.2 ++ " " ++
    pad2 hh ++ ":" ++ pad2 mi ++ ":" ++ pad2 ss ++ "." ++ pad3 millis ++ " UTC"


/-- C9, code bug.  At the failing input 1742567537456 ms the code
renders "2025-03-21 14:32:17 UTC", dropping the ".456" milliseconds
that both the spec and the function's own doc-comment example
("2025-03-21 14:32:17.456 UTC") require. -/
theorem c9_theorem :
    timestamp_to_string 1742567537456 = "2025-03-21 14:32:17 UTC" ∧
    timestamp_to_string_spec 1742567537456 = "2025-03-21 14:32:17.456 UTC" ∧
    timestamp_to_string 1742567537456 ≠ timestamp_to_string_spec 1742567537456 := by
  refine ⟨?_, ?_, ?_⟩ <;> decide